import Mathlib

/-!
Verification of the `restricted_filenames_renamer` repository.

Names are modelled as `List Char` (Python `str` is a sequence of Unicode
code points, and so is `List Char`).  Each definition below is a shallow
embedding of the function of the same name in
`src/restricted_filenames_renamer/sanitizer.py` or `scanner.py`; the
human-readable issue strings produced by the Python code are abstracted to
tags of the inductive type `Issue` (the claims under verification only ever
inspect whether issue lists are empty or which stage produced an entry,
never the message text), but the *conditions* under which an issue is
emitted follow the source exactly.
-/

namespace RFR

/-- A filename, as a sequence of Unicode code points (Python `str`). -/
abbrev Name := List Char

/-- Tags for the human-readable issue strings of the source.  One tag per
`issues.append(...)` site in `sanitizer.py` / `scanner.py`. -/
inductive Issue where
  /-- sanitizer.py:103 "Replaced {forbidden/control characters ...}" -/
  | replacedChars
  /-- sanitizer.py:129 "Stripped trailing characters: ..." (override mode) -/
  | strippedTrailing
  /-- sanitizer.py:132 "Name was empty after stripping; replaced with fallback character" -/
  | emptyFallback
  /-- sanitizer.py:139 "Replaced trailing characters: ..." (Unicode mode) -/
  | replacedTrailing
  /-- sanitizer.py:158 "Reserved Windows device name: ..." -/
  | reservedName
  /-- sanitizer.py:173 "Name length ... exceeds limit ...; truncated" -/
  | truncated
  /-- scanner.py:248 "Name collision resolved: appended suffix ..." -/
  | collisionResolved
deriving DecidableEq, Repr

/-- sanitizer.py:27 `_FORBIDDEN_CHAR_MAP`: the nine Windows-forbidden
punctuation characters and their fullwidth replacements. -/
def forbiddenRepl (c : Char) : Option Char :=
  match c with
  | '\\' => some '＼'
  | '/' => some '／'
  | ':' => some '：'
  | '*' => some '＊'
  | '?' => some '？'
  | '"' => some '＂'
  | '<' => some '＜'
  | '>' => some '＞'
  | '|' => some '｜'
  | _ => none

/-- sanitizer.py:40 `_CONTROL_CHAR_MAP`: ASCII control characters
0x00-0x1F map to Control Pictures U+2400-U+241F. -/
def isControlChar (c : Char) : Bool := c.toNat < 0x20

/-- The Control Picture replacement for a control character. -/
def controlRepl (c : Char) : Char := Char.ofNat (0x2400 + c.toNat)

/-- sanitizer.py:43 `UNICODE_CHAR_MAP`: combined restricted-character map
(forbidden-character entries take precedence; the two domains are disjoint
since all forbidden characters are >= 0x20). -/
def unicodeRepl (c : Char) : Option Char :=
  match forbiddenRepl c with
  | some r => some r
  | none => if isControlChar c then some (controlRepl c) else none

/-- sanitizer.py:55 `ALL_RESTRICTED_CHARS` membership (the 41 restricted
characters, exactly the domain of `UNICODE_CHAR_MAP`). -/
def isRestrictedChar (c : Char) : Bool := (unicodeRepl c).isSome

/-- sanitizer.py:46 `UNICODE_DOT_REPLACEMENT` (FULLWIDTH FULL STOP). -/
def unicodeDotRepl : Char := '．'

/-- sanitizer.py:47 `UNICODE_SPACE_REPLACEMENT` (SYMBOL FOR SPACE). -/
def unicodeSpaceRepl : Char := '␠'

/-- sanitizer.py:75 `replace_forbidden_chars`.  In override mode
(`rc = some c`) every restricted character becomes `c`
(`_RESTRICTED_CHAR_RE.sub`); in Unicode mode each restricted character is
replaced via `UNICODE_CHAR_MAP` (`_replace_chars_unicode`, line 233).
An issue is recorded exactly when the result differs from the input.
`rfcMap` is the `result` computed at sanitizer.py:86-89. -/
def rfcMap (name : Name) (rc : Option Char) : Name :=
  match rc with
  | some c => name.map (fun ch => if isRestrictedChar ch then c else ch)
  | none => name.map (fun ch => (unicodeRepl ch).getD ch)

/-- sanitizer.py:75 `replace_forbidden_chars` proper. -/
def replace_forbidden_chars (name : Name) (rc : Option Char) : Name × List Issue :=
  let result : Name := rfcMap name rc
  if result = name then (result, []) else (result, [Issue.replacedChars])

/-- Is `c` a trailing dot/space character (`_TRAILING_DOTS_SPACES_RE`
character class `[. ]`, sanitizer.py:69)? -/
def isDotSpace (c : Char) : Bool := c = '.' || c = ' '

/-- The maximal trailing run of dots/spaces (`match.group()` of
`_TRAILING_DOTS_SPACES_RE.search(name)`). -/
def trailingDS (name : Name) : Name := (name.reverse.takeWhile isDotSpace).reverse

/-- Everything before the trailing dot/space run (`name[:match.start()]`). -/
def beforeTrailingDS (name : Name) : Name := (name.reverse.dropWhile isDotSpace).reverse

/-- sanitizer.py:107 `strip_trailing_dots_spaces`.  In Unicode mode each
trailing `.` becomes `．` and each trailing space becomes `␠`
(`trailing.replace(...)`, lines 135-137); in override mode the trailing run
is stripped, with `rc` as fallback when the name becomes empty. -/
def strip_trailing_dots_spaces (name : Name) (rc : Option Char) : Name × List Issue :=
  let trail := trailingDS name
  if trail = [] then (name, [])
  else
    let front := beforeTrailingDS name
    match rc with
    | some c =>
        if front = [] then ([c], [Issue.strippedTrailing, Issue.emptyFallback])
        else (front, [Issue.strippedTrailing])
    | none =>
        (front ++ trail.map (fun ch =>
          if ch = '.' then unicodeDotRepl else if ch = ' ' then unicodeSpaceRepl else ch),
         [Issue.replacedTrailing])

/-- The stem used by the reserved-name check: everything before the *first*
dot, or the whole name when there is no dot (sanitizer.py:153-154). -/
def stemFirstDot (name : Name) : Name := name.takeWhile (fun c => c ≠ '.')

/-- sanitizer.py:63 `_RESERVED_NAMES_RE` applied to a stem:
`^(CON|PRN|AUX|NUL|COM\d|LPT\d)$`, case-insensitive.  Modelled with ASCII
upper-casing and ASCII digits (Python's `re.IGNORECASE`/`\d` additionally
cover some non-ASCII code points; on ASCII input the two agree exactly and
no claim under verification depends on the non-ASCII fringe). -/
def reservedStem (stem : Name) : Bool :=
  match stem.map Char.toUpper with
  | ['C', 'O', 'N'] => true
  | ['P', 'R', 'N'] => true
  | ['A', 'U', 'X'] => true
  | ['N', 'U', 'L'] => true
  | ['C', 'O', 'M', d] => d.isDigit
  | ['L', 'P', 'T', d] => d.isDigit
  | _ => false

/-- sanitizer.py:144 `handle_reserved_names`: prefix a reserved name with
`pc` (default `"_"`).  The match is case-insensitive on the stem before the
first dot. -/
def handle_reserved_names (name : Name) (pc : Char := '_') : Name × List Issue :=
  if reservedStem (stemFirstDot name) then (pc :: name, [Issue.reservedName])
  else (name, [])

/-- `name.rfind(".")`: index of the last dot, if any. -/
def rfindDot : Name → Option Nat
  | [] => none
  | c :: cs =>
      match rfindDot cs with
      | some j => some (j + 1)
      | none => if c = '.' then some 0 else none

/-- sanitizer.py:71 `DEFAULT_MAX_NAME_LENGTH`. -/
def DEFAULT_MAX_NAME_LENGTH : Nat := 255

/-- scanner.py / sanitizer.py:72 `WINDOWS_MAX_PATH`. -/
def WINDOWS_MAX_PATH : Nat := 260

/-- sanitizer.py:164 `truncate_name`.  `dot_idx <= 0` in the source covers
both "no dot" (`rfind` returned -1) and "dot at position 0". -/
def truncate_name (name : Name) (maxLength : Nat := DEFAULT_MAX_NAME_LENGTH) :
    Name × List Issue :=
  if name.length ≤ maxLength then (name, [])
  else
    let issues := [Issue.truncated]
    match rfindDot name with
    | none => (name.take maxLength, issues)
    | some 0 => (name.take maxLength, issues)
    | some j =>
        let stem := name.take j
        let ext := name.drop j
        if maxLength ≤ ext.length then (name.take maxLength, issues)
        else (stem.take (maxLength - ext.length) ++ ext, issues)

/-- sanitizer.py:189 `sanitize_name`: the four-stage pipeline.  Note that
`handle_reserved_names` is called with its default prefix `"_"` in *both*
modes (line 218 passes no `prefix_char`). -/
def sanitize_name (name : Name) (rc : Option Char)
    (maxLength : Nat := DEFAULT_MAX_NAME_LENGTH) : Name × List Issue :=
  let s1 := replace_forbidden_chars name rc
  let s2 := strip_trailing_dots_spaces s1.1 rc
  let s3 := handle_reserved_names s2.1
  let s4 := truncate_name s3.1 maxLength
  (s4.1, s1.2 ++ s2.2 ++ s3.2 ++ s4.2)

/-- sanitizer.py:227 `is_name_safe`: true when the name needs no
sanitization.  Note the source always calls `sanitize_name` in Unicode mode
here (no `replace_char` argument). -/
def is_name_safe (name : Name) (maxLength : Nat := DEFAULT_MAX_NAME_LENGTH) : Bool :=
  decide ((sanitize_name name none maxLength).1 = name)

/-- The name produced by the first three pipeline stages, before
truncation (the intermediate value fed to `truncate_name` at
sanitizer.py:221). -/
def sanitize_pre_truncate (name : Name) (rc : Option Char) : Name :=
  (handle_reserved_names (strip_trailing_dots_spaces
    (replace_forbidden_chars name rc).1 rc).1).1

/-!
## Scanner (scanner.py)

Filesystem paths are modelled as lists of name components of an
already-resolved absolute path (`Path.resolve` is the identity on the
model: the scanner only ever joins validated components under the resolved
root).  Python `dict`s are modelled as association lists in insertion
order, sets as lists (only membership is used).  The `while True` loop of
`_find_available_name` can genuinely diverge (see the C3 theorem), so the
loop — and everything that calls it — takes an explicit fuel argument and
returns `none` when the fuel runs out; `none` also models a raised
`ValueError` from `validate_path_under_root`.
-/

/-- A resolved absolute path, as its list of components. -/
abbrev PathC := List Name

/-- scanner.py:22 `EntryKind`. -/
inductive EntryKind where
  | file
  | directory
  | symlink
deriving DecidableEq, Repr

/-- scanner.py:30 `RenameAction`. -/
structure RenameAction where
  source : PathC
  destination : PathC
  kind : EntryKind
  original_name : Name
  final_name : Name
  issues : List Issue
  needs_rename : Bool
deriving DecidableEq, Repr

/-- scanner.py:43 `RenamePlan` (the `warnings` list, which no claim
mentions, is omitted from the model). -/
structure RenamePlan where
  root : PathC
  actions : List RenameAction
  skipped_symlinks : List PathC
  total_entries_scanned : Nat
  total_renames_needed : Nat
deriving DecidableEq, Repr

/-- scanner.py:54 `RenamePlan.has_changes`. -/
def RenamePlan.has_changes (p : RenamePlan) : Bool := decide (0 < p.total_renames_needed)

/-- `os.path.commonpath` on two resolved paths: the longest common
component run from the root. -/
def commonComponents : PathC → PathC → PathC
  | a :: as, b :: bs => if a = b then a :: commonComponents as bs else []
  | _, _ => []

/-- scanner.py:69 `validate_path_under_root`: `true` iff no `ValueError`
is raised, i.e. iff the common path of the (resolved) candidate and root
equals the root. -/
def validate_path_under_root (path root : PathC) : Bool :=
  decide (commonComponents path root = root)

/-- Decimal digits of a natural number, fuel-indexed so that the kernel
can evaluate it (the fuel `n + 1` always suffices). -/
def natDigitsAux : Nat → Nat → List Char
  | 0, _ => []
  | fuel + 1, n =>
      if n < 10 then [Nat.digitChar n]
      else natDigitsAux fuel (n / 10) ++ [Nat.digitChar (n % 10)]

/-- The decimal representation of `n`, as Python's `f"{n}"` produces. -/
def natDigits (n : Nat) : List Char := natDigitsAux (n + 1) n

/-- scanner.py:132 `suffix = f"_{counter}"`. -/
def suffixFor (counter : Nat) : Name := '_' :: natDigits counter

/-- scanner.py:122-128: split the desired name at its last dot;
`dot_idx <= 0` (no dot, or a leading dot) means no extension. -/
def splitAtLastDot (desired : Name) : Name × Name :=
  match rfindDot desired with
  | none => (desired, [])
  | some 0 => (desired, [])
  | some j => (desired.take j, desired.drop j)

/-- One iteration of the `while True` loop body of `_find_available_name`
(scanner.py:131-142), producing the candidate for a given counter.
`max_stem_len` is a Python `int` and can be negative, hence `Int`. -/
def candidateAt (stem ext : Name) (maxLength : Nat) (counter : Nat) : Name :=
  let suff := suffixFor counter
  let candidate_stem := stem ++ suff
  let maxStemLen : Int := (maxLength : Int) - ext.length - suff.length
  if maxStemLen < 1 then (stem ++ suff).take maxLength
  else if maxLength < candidate_stem.length + ext.length then
    stem.take maxStemLen.toNat ++ suff ++ ext
  else candidate_stem ++ ext

/-- The `while True` search loop of `_find_available_name`, with fuel. -/
def findAvailGo (stem ext : Name) (taken : List Name) (maxLength : Nat) :
    Nat → Nat → Option Name
  | 0, _ => none
  | fuel + 1, counter =>
      let cand := candidateAt stem ext maxLength counter
      if cand ∈ taken then findAvailGo stem ext taken maxLength fuel (counter + 1)
      else some cand

/-- scanner.py:114 `_find_available_name`, fuel-indexed (`none` means the
source loop has not terminated within `fuel` iterations). -/
def _find_available_name (fuel : Nat) (desired : Name) (taken : List Name)
    (maxLength : Nat) : Option Name :=
  if desired ∈ taken then
    let p := splitAtLastDot desired
    findAvailGo p.1 p.2 taken maxLength fuel 1
  else some desired

/-- Strict lexicographic order on names by code point, as Python `<` on
`str`. -/
def lexLt : Name → Name → Bool
  | _, [] => false
  | [], _ :: _ => true
  | x :: xs, y :: ys => if x = y then lexLt xs ys else decide (x < y)

/-- Stable insertion of `x` into a list sorted by `lt` (equal keys keep
their original relative order). -/
def insertSorted (lt : α → α → Bool) (x : α) : List α → List α
  | [] => [x]
  | y :: ys => if lt x y then x :: y :: ys else y :: insertSorted lt x ys

/-- Stable sort by `lt` (insertion sort). -/
def sortByKey (lt : α → α → Bool) : List α → List α
  | [] => []
  | x :: xs => insertSorted lt x (sortByKey lt xs)

/-- `sorted(planned_renames.items())` (scanner.py:106): Python compares the
`(key, value)` tuples, and the keys of a dict are distinct, so sorting by
key alone gives the same order. -/
def sortRenames (l : List (Name × Name)) : List (Name × Name) :=
  sortByKey (fun p q => lexLt p.1 q.1) l

/-- The accumulation loop of `_resolve_collisions` (scanner.py:106-109):
each original is assigned a fresh final name, which is then added to the
taken set. -/
def resolveGo (fuel : Nat) (maxLength : Nat) :
    List (Name × Name) → List Name → List (Name × Name) → Option (List (Name × Name))
  | [], _, acc => some acc.reverse
  | (o, d) :: rest, taken, acc =>
      match _find_available_name fuel d taken maxLength with
      | none => none
      | some f => resolveGo fuel maxLength rest (f :: taken) ((o, f) :: acc)

/-- scanner.py:84 `_resolve_collisions`, fuel-indexed. -/
def _resolve_collisions (fuel : Nat) (planned_renames : List (Name × Name))
    (untouched_names : List Name) (maxLength : Nat) : Option (List (Name × Name)) :=
  resolveGo fuel maxLength (sortRenames planned_renames) untouched_names []

/-- A filesystem tree entry, as the scanner sees it (the model covers the
default `follow_symlinks = False` configuration: a symlink — to a file or
to a directory — is recorded and skipped, and `os.walk` does not descend
into it). -/
inductive FSEntry where
  | file (name : Name)
  | symlink (name : Name)
  | dir (name : Name) (children : List FSEntry)

/-- The name of a tree entry. -/
def entryName : FSEntry → Name
  | .file n => n
  | .symlink n => n
  | .dir n _ => n

mutual
/-- The triples `(dirpath, direct children)` yielded by
`os.walk(..., topdown=False)` for the subtree rooted at one entry:
deepest directories first, each directory after all of its
subdirectories. -/
def walkEntry (path : PathC) : FSEntry → List (PathC × List FSEntry)
  | .file _ => []
  | .symlink _ => []
  | .dir n cs => walkList (path ++ [n]) cs ++ [(path ++ [n], cs)]

/-- `walkEntry` over a list of sibling entries, in listing order. -/
def walkList (path : PathC) : List FSEntry → List (PathC × List FSEntry)
  | [] => []
  | c :: cs => walkEntry path c ++ walkList path cs
end

/-- All triples yielded by `os.walk(root, topdown=False)`: the subtrees of
the root's children first, the root's own triple last. -/
def walkTriples (rootPath : PathC) (children : List FSEntry) :
    List (PathC × List FSEntry) :=
  walkList rootPath children ++ [(rootPath, children)]

/-- Names of the non-symlink files among a directory's children
(`filenames` minus skipped symlinks, scanner.py:190-199). -/
def filesOf (cs : List FSEntry) : List Name :=
  cs.filterMap (fun c => match c with | .file n => some n | _ => none)

/-- Names of the non-symlink subdirectories (`dirnames` minus skipped
symlinks, scanner.py:201-210). -/
def dirsOf (cs : List FSEntry) : List Name :=
  cs.filterMap (fun c => match c with | .dir n _ => some n | _ => none)

/-- Names of the symlink children (skipped, recorded, counted). -/
def symlinksOf (cs : List FSEntry) : List Name :=
  cs.filterMap (fun c => match c with | .symlink n => some n | _ => none)

/-- The Python `for` loops that build a list, aborting the whole
computation when an iteration fails (raises / runs out of fuel). -/
def mapOrNone (f : α → Option β) : List α → Option (List β)
  | [] => some []
  | x :: xs =>
      match f x, mapOrNone f xs with
      | some y, some ys => some (y :: ys)
      | _, _ => none

/-- Assoc-list lookup (`planned_renames[name]`). -/
def lookupName (l : List (Name × Name)) (n : Name) : Option Name :=
  (l.find? (fun p => decide (p.1 = n))).map Prod.snd

/-- The `entries` list built at scanner.py:188-210 (non-symlink files in
listing order, then non-symlink subdirectories). -/
def dirEntries (children : List FSEntry) : List (Name × EntryKind) :=
  (filesOf children).map (fun n => (n, EntryKind.file))
    ++ (dirsOf children).map (fun n => (n, EntryKind.directory))

/-- Each entry paired with its sanitization result (scanner.py:221-224;
also serves as the `entry_info` dict). -/
def sanitizedEntries (rc : Option Char) (maxLength : Nat) (children : List FSEntry) :
    List (Name × EntryKind × Name × List Issue) :=
  (dirEntries children).map (fun p => (p.1, p.2, sanitize_name p.1 rc maxLength))

/-- `planned_renames` (scanner.py:225-226): entries whose sanitized name
differs. -/
def plannedOf (sani : List (Name × EntryKind × Name × List Issue)) : List (Name × Name) :=
  sani.filterMap (fun q => if q.2.2.1 ≠ q.1 then some (q.1, q.2.2.1) else none)

/-- `untouched_names` (scanner.py:228-229). -/
def untouchedOf (sani : List (Name × EntryKind × Name × List Issue)) : List Name :=
  sani.filterMap (fun q => if q.2.2.1 = q.1 then some q.1 else none)

/-- Emission of one `RenameAction` (scanner.py:239-262): look up kind and
issues, add the collision note when resolution changed the name further,
validate the destination (a failure — `none` — models the raised
`ValueError`).  The `getD` defaults model Python dict lookups whose key is
always present (`entry_info[original_name]`,
`planned_renames[original_name]`). -/
def emitAction (root dirpath : PathC) (sani : List (Name × EntryKind × Name × List Issue))
    (planned : List (Name × Name)) (of : Name × Name) : Option RenameAction :=
  let ki := (sani.find? (fun q => decide (q.1 = of.1))).map (fun q => (q.2.1, q.2.2.2))
  let kind := (ki.map Prod.fst).getD EntryKind.file
  let baseIssues := (ki.map Prod.snd).getD []
  let desired := (lookupName planned of.1).getD []
  let issues := if of.2 ≠ desired then baseIssues ++ [Issue.collisionResolved]
    else baseIssues
  let dest := dirpath ++ [of.2]
  if validate_path_under_root dest root then
    some { source := dirpath ++ [of.1], destination := dest, kind := kind,
           original_name := of.1, final_name := of.2, issues := issues,
           needs_rename := true }
  else none

/-- The per-directory body of `build_rename_plan` (scanner.py:185-263) for
one `os.walk` triple: classify children, sanitize, resolve collisions, and
emit the directory's `RenameAction`s (in sorted order of original name)
together with its skipped-symlink paths and its scanned-entry count. -/
def dirBlock (fuel : Nat) (rc : Option Char) (maxLength : Nat) (root : PathC)
    (dirpath : PathC) (children : List FSEntry) :
    Option (List RenameAction × List PathC × Nat) :=
  let skipped := (symlinksOf children).map (fun n => dirpath ++ [n])
  let sani := sanitizedEntries rc maxLength children
  let planned := plannedOf sani
  let untouched := untouchedOf sani
  let scanned := skipped.length + (dirEntries children).length
  match (if planned = [] then some []
         else _resolve_collisions fuel planned untouched maxLength) with
  | none => none
  | some finals =>
      match mapOrNone (emitAction root dirpath sani planned) (sortRenames finals) with
      | none => none
      | some acts => some (acts, skipped, scanned)

/-- scanner.py:149 `build_rename_plan` for the default
`follow_symlinks = False` configuration.  The root is given as its
resolved path plus its list of children (the source's `is_dir` check is a
construction precondition of the model).  `none` models a raised
exception or exhausted fuel. -/
def build_rename_plan (fuel : Nat) (rootPath : PathC) (rootChildren : List FSEntry)
    (rc : Option Char) (maxLength : Nat) : Option RenamePlan :=
  let triples := walkTriples rootPath rootChildren
  match mapOrNone (fun t => dirBlock fuel rc maxLength rootPath t.1 t.2) triples with
  | none => none
  | some blocks =>
      some { root := rootPath,
             actions := (blocks.map (fun b => b.1)).flatten,
             skipped_symlinks := (blocks.map (fun b => b.2.1)).flatten,
             total_entries_scanned := (blocks.map (fun b => b.2.2)).sum,
             total_renames_needed := (blocks.map (fun b => b.1.length)).sum }

/-- Boolean component-prefix test: `isUnder p q` iff `p` is an initial run
of `q`'s components (so `q` lies at or under the directory `p`). -/
def isUnder : PathC → PathC → Bool
  | [], _ => true
  | _ :: _, [] => false
  | a :: as, b :: bs => decide (a = b) && isUnder as bs

mutual
/-- Well-formedness of a scanned tree: within every directory, the
children carry pairwise distinct names (as on a real filesystem). -/
def wfEntry : FSEntry → Bool
  | .file _ => true
  | .symlink _ => true
  | .dir _ cs => decide ((cs.map entryName).Nodup) && wfList cs

/-- `wfEntry` over a list of sibling trees. -/
def wfList : List FSEntry → Bool
  | [] => true
  | c :: cs => wfEntry c && wfList cs
end

/-- Well-formedness of a scanned root: its children have pairwise distinct
names and each subtree is well-formed. -/
def wfChildren (cs : List FSEntry) : Bool :=
  decide ((cs.map entryName).Nodup) && wfList cs

/-!
## Basic properties of the sanitizer stages
-/

/-- A name containing none of the 41 restricted characters. -/
def noRestricted (s : Name) : Prop := ∀ c ∈ s, isRestrictedChar c = false

/-- A name with no trailing dots or spaces. -/
def noTrailDS (s : Name) : Prop := trailingDS s = []

theorem front_append_trail (s : Name) : beforeTrailingDS s ++ trailingDS s = s := by
  have h := List.takeWhile_append_dropWhile (p := isDotSpace) (l := s.reverse)
  unfold beforeTrailingDS trailingDS
  calc (s.reverse.dropWhile isDotSpace).reverse ++ (s.reverse.takeWhile isDotSpace).reverse
      = (s.reverse.takeWhile isDotSpace ++ s.reverse.dropWhile isDotSpace).reverse := by
        rw [List.reverse_append]
    _ = s := by rw [h, List.reverse_reverse]

theorem mem_trailingDS {s : Name} {c : Char} (h : c ∈ trailingDS s) : isDotSpace c = true := by
  unfold trailingDS at h
  exact List.mem_takeWhile_imp (List.mem_reverse.mp h)

/-- The part before the trailing dot/space run has itself no trailing
dots/spaces. -/
theorem noTrailDS_front (s : Name) : noTrailDS (beforeTrailingDS s) := by
  unfold noTrailDS trailingDS beforeTrailingDS
  rw [List.reverse_reverse, List.reverse_eq_nil_iff]
  cases hd : s.reverse.dropWhile isDotSpace with
  | nil => simp
  | cons x xs =>
      have hx : isDotSpace x = false := by
        have := List.head_dropWhile_not isDotSpace (l := s.reverse)
        rw [hd] at this
        simpa using this (by simp)
      simp [List.takeWhile, hx]

/-- A nonempty name whose last character is not a dot/space has no
trailing run. -/
theorem noTrailDS_of_getLast {s : Name} {c : Char} (hlast : s.getLast? = some c)
    (hc : isDotSpace c = false) : noTrailDS s := by
  unfold noTrailDS trailingDS
  rw [List.reverse_eq_nil_iff]
  have hrev : s.reverse.head? = some c := by rwa [List.head?_reverse]
  cases hs : s.reverse with
  | nil => simp
  | cons x xs =>
      rw [hs] at hrev
      simp only [List.head?] at hrev
      cases hrev
      simp [List.takeWhile, hc]

theorem trailingDS_append_single {s : Name} {c : Char} (hc : isDotSpace c = false) :
    noTrailDS (s ++ [c]) := by
  apply noTrailDS_of_getLast (c := c) _ hc
  simp

theorem noTrailDS_nil : noTrailDS ([] : Name) := by
  unfold noTrailDS trailingDS
  simp

theorem toNat_ofNat_valid {n : Nat} (h : n < 0xD800) : (Char.ofNat n).toNat = n := by
  have hv : n.isValidChar := Or.inl h
  rw [Char.ofNat, dif_pos hv]
  show (UInt32.ofNat' n _).toNat = n
  simp [UInt32.ofNat', UInt32.toNat]

theorem map_id_of_mem {α : Type} {l : List α} {f : α → α} (h : ∀ x ∈ l, f x = x) :
    l.map f = l := by
  induction l with
  | nil => rfl
  | cons x xs ih =>
      simp only [List.map_cons, h x (by simp), ih (fun y hy => h y (by simp [hy]))]

/-- The replacements produced by `UNICODE_CHAR_MAP` are themselves
unrestricted characters. -/
theorem unicodeRepl_not_restricted {c r : Char} (h : unicodeRepl c = some r) :
    isRestrictedChar r = false := by
  unfold unicodeRepl at h
  cases hf : forbiddenRepl c with
  | some fr =>
      rw [hf] at h
      cases h
      revert hf
      unfold forbiddenRepl
      split <;> intro hf <;> (first | (cases hf; decide) | cases hf)
  | none =>
      rw [hf] at h
      by_cases hc : isControlChar c
      · simp [hc] at h
        subst h
        have hlt : c.toNat < 0x20 := by simpa [isControlChar] using hc
        have hval : (controlRepl c).toNat = 0x2400 + c.toNat := by
          unfold controlRepl
          exact toNat_ofNat_valid (by omega)
        have hge : 0x2400 ≤ (controlRepl c).toNat := by omega
        unfold isRestrictedChar unicodeRepl
        have hforb : forbiddenRepl (controlRepl c) = none := by
          unfold forbiddenRepl
          split
          all_goals first
            | rfl
            | (exfalso
               rename_i heq
               rw [heq] at hge
               simp at hge)
        rw [hforb]
        have : isControlChar (controlRepl c) = false := by
          unfold isControlChar
          simp only [decide_eq_false_iff_not]
          omega
        simp [this]
      · simp [hc] at h

theorem isRestrictedChar_iff {c : Char} : isRestrictedChar c = false ↔ unicodeRepl c = none := by
  unfold isRestrictedChar
  cases unicodeRepl c <;> simp

/-- The character-substitution map fixes a name without restricted
characters. -/
theorem rfcMap_eq_self {s : Name} (rc : Option Char) (h : noRestricted s) :
    rfcMap s rc = s := by
  unfold rfcMap
  cases rc with
  | some c =>
      apply map_id_of_mem
      intro ch hch
      simp [h ch hch]
  | none =>
      apply map_id_of_mem
      intro ch hch
      have := (isRestrictedChar_iff).mp (h ch hch)
      simp [this]

/-- Stage 1 is a no-op on names without restricted characters (either
mode). -/
theorem rfc_eq_self {s : Name} (rc : Option Char) (h : noRestricted s) :
    replace_forbidden_chars s rc = (s, []) := by
  have hmap := rfcMap_eq_self rc h
  simp only [replace_forbidden_chars]
  rw [hmap]
  simp

/-- The name component of stage 1 is always the substitution map's
output. -/
theorem rfc_fst (s : Name) (rc : Option Char) :
    (replace_forbidden_chars s rc).1 = rfcMap s rc := by
  simp only [replace_forbidden_chars]
  split <;> rfl

/-- Stage 1 reports an issue exactly when the substitution changed the
name. -/
theorem rfc_snd_nil_iff (s : Name) (rc : Option Char) :
    (replace_forbidden_chars s rc).2 = [] ↔ rfcMap s rc = s := by
  simp only [replace_forbidden_chars]
  split <;> rename_i h <;> simp [h]

theorem rfcMap_noRestricted {s : Name} {rc : Option Char}
    (hrc : ∀ c, rc = some c → isRestrictedChar c = false) :
    noRestricted (rfcMap s rc) := by
  intro ch hch
  unfold rfcMap at hch
  cases rc with
  | some c =>
      simp only [List.mem_map] at hch
      obtain ⟨a, _, ha⟩ := hch
      by_cases hra : isRestrictedChar a = true
      · rw [if_pos hra] at ha
        subst ha
        exact hrc c rfl
      · rw [if_neg hra] at ha
        subst ha
        simpa using hra
  | none =>
      simp only [List.mem_map] at hch
      obtain ⟨a, _, ha⟩ := hch
      cases hu : unicodeRepl a with
      | some r =>
          rw [hu] at ha
          simp only [Option.getD_some] at ha
          subst ha
          exact unicodeRepl_not_restricted hu
      | none =>
          rw [hu] at ha
          simp only [Option.getD_none] at ha
          subst ha
          exact isRestrictedChar_iff.mpr hu

/-- Stage 1 always produces a name without restricted characters, provided
the override substitute (when given) is itself unrestricted. -/
theorem rfc_noRestricted {s : Name} {rc : Option Char}
    (hrc : ∀ c, rc = some c → isRestrictedChar c = false) :
    noRestricted (replace_forbidden_chars s rc).1 := by
  rw [rfc_fst]
  exact rfcMap_noRestricted hrc

/-- Stage 2 is a no-op on names without a trailing dot/space run. -/
theorem strip_eq_self {s : Name} (rc : Option Char) (h : noTrailDS s) :
    strip_trailing_dots_spaces s rc = (s, []) := by
  have h' : trailingDS s = [] := h
  simp [strip_trailing_dots_spaces, h']

theorem strip_eq_some_fb {s : Name} {c : Char} (ht : trailingDS s ≠ [])
    (hf : beforeTrailingDS s = []) :
    strip_trailing_dots_spaces s (some c)
      = ([c], [Issue.strippedTrailing, Issue.emptyFallback]) := by
  unfold strip_trailing_dots_spaces
  rw [if_neg ht]
  simp [hf]

theorem strip_eq_some {s : Name} {c : Char} (ht : trailingDS s ≠ [])
    (hf : beforeTrailingDS s ≠ []) :
    strip_trailing_dots_spaces s (some c)
      = (beforeTrailingDS s, [Issue.strippedTrailing]) := by
  unfold strip_trailing_dots_spaces
  rw [if_neg ht]
  simp only [if_neg hf]

theorem strip_eq_none {s : Name} (ht : trailingDS s ≠ []) :
    strip_trailing_dots_spaces s none
      = (beforeTrailingDS s ++ (trailingDS s).map (fun ch =>
          if ch = '.' then unicodeDotRepl else if ch = ' ' then unicodeSpaceRepl else ch),
         [Issue.replacedTrailing]) := by
  unfold strip_trailing_dots_spaces
  rw [if_neg ht]

theorem mem_front {s : Name} {c : Char} (hc : c ∈ beforeTrailingDS s) : c ∈ s := by
  rw [← front_append_trail s]
  exact List.mem_append_left _ hc

/-- Stage 2 preserves the absence of restricted characters (the fullwidth
dot, the space symbol and a well-chosen substitute are unrestricted). -/
theorem strip_noRestricted {s : Name} {rc : Option Char} (hs : noRestricted s)
    (hrc : ∀ c, rc = some c → isRestrictedChar c = false) :
    noRestricted (strip_trailing_dots_spaces s rc).1 := by
  by_cases ht : trailingDS s = []
  · rw [strip_eq_self rc ht]; exact hs
  · cases rc with
    | some c0 =>
        by_cases hf : beforeTrailingDS s = []
        · rw [strip_eq_some_fb ht hf]
          intro x hx
          simp only [List.mem_singleton] at hx
          subst hx
          exact hrc _ rfl
        · rw [strip_eq_some ht hf]
          intro x hx
          exact hs x (mem_front hx)
    | none =>
        rw [strip_eq_none ht]
        intro x hx
        simp only [List.mem_append, List.mem_map] at hx
        rcases hx with hx | ⟨a, ham, ha⟩
        · exact hs x (mem_front hx)
        · by_cases hdot : a = '.'
          · rw [if_pos hdot] at ha
            subst ha
            decide
          · rw [if_neg hdot] at ha
            by_cases hsp : a = ' '
            · rw [if_pos hsp] at ha
              subst ha
              decide
            · rw [if_neg hsp] at ha
              subst ha
              refine hs a ?_
              rw [← front_append_trail s]
              exact List.mem_append_right _ ham

theorem noTrailDS_cons {s : Name} {c : Char} (hc : isDotSpace c = false)
    (hs : noTrailDS s) : noTrailDS (c :: s) := by
  unfold noTrailDS trailingDS at *
  rw [List.reverse_eq_nil_iff] at *
  rw [List.reverse_cons]
  cases hr : s.reverse with
  | nil => simp [List.takeWhile, hc]
  | cons x xs =>
      rw [hr] at hs
      rw [List.takeWhile_cons] at hs
      rw [List.cons_append, List.takeWhile_cons]
      by_cases hx : isDotSpace x = true
      · rw [if_pos hx] at hs; simp at hs
      · rw [if_neg hx]

/-- Stage 2 always produces a name without a trailing dot/space run,
provided the override substitute (when given) is not itself a dot or
space. -/
theorem strip_noTrailDS {s : Name} {rc : Option Char}
    (hrc : ∀ c, rc = some c → isDotSpace c = false) :
    noTrailDS (strip_trailing_dots_spaces s rc).1 := by
  by_cases ht : trailingDS s = []
  · rw [strip_eq_self rc ht]; exact ht
  · cases rc with
    | some c =>
        by_cases hf : beforeTrailingDS s = []
        · rw [strip_eq_some_fb ht hf]
          exact noTrailDS_of_getLast (by simp) (hrc c rfl)
        · rw [strip_eq_some ht hf]
          exact noTrailDS_front s
    | none =>
        rw [strip_eq_none ht]
        obtain ⟨a, ha⟩ : ∃ a, (trailingDS s).getLast? = some a := by
          have := List.getLast?_isSome.mpr ht
          exact Option.isSome_iff_exists.mp this
        have hads := mem_trailingDS (List.mem_of_getLast?_eq_some ha)
        set f : Char → Char := fun ch =>
          if ch = '.' then unicodeDotRepl else if ch = ' ' then unicodeSpaceRepl else ch with hf
        have hmapne : (trailingDS s).map f ≠ [] := by simpa using ht
        have hlast : (beforeTrailingDS s ++ (trailingDS s).map f).getLast? = some (f a) := by
          rw [List.getLast?_append_of_ne_nil _ hmapne, List.getLast?_map, ha]
          rfl
        refine noTrailDS_of_getLast hlast ?_
        unfold isDotSpace at hads
        rcases Bool.or_eq_true_iff.mp hads with h1 | h1
        · have : a = '.' := by simpa using h1
          subst this
          simp only [hf, if_pos rfl]
          decide
        · have : a = ' ' := by simpa using h1
          subst this
          simp only [hf]
          decide

theorem front_trail_length (s : Name) :
    (beforeTrailingDS s).length + (trailingDS s).length = s.length := by
  have := congrArg List.length (front_append_trail s)
  simpa using this

/-- Stage 2 never lengthens a name (the fallback branch produces a single
character, and the fallback is only reached on a nonempty input). -/
theorem strip_length_le (s : Name) (rc : Option Char) :
    (strip_trailing_dots_spaces s rc).1.length ≤ max 1 s.length := by
  by_cases ht : trailingDS s = []
  · rw [strip_eq_self rc ht]; simp
  · have hfl := front_trail_length s
    have htl : 1 ≤ (trailingDS s).length := by
      cases h : trailingDS s with
      | nil => exact absurd h ht
      | cons a l => simp
    cases rc with
    | some c =>
        by_cases hf : beforeTrailingDS s = []
        · rw [strip_eq_some_fb ht hf]
          simp
        · rw [strip_eq_some ht hf]
          simp only []
          omega
    | none =>
        rw [strip_eq_none ht]
        simp only [List.length_append, List.length_map]
        omega

/-- In Unicode mode stage 2 preserves the length exactly. -/
theorem strip_length_none (s : Name) :
    (strip_trailing_dots_spaces s none).1.length = s.length := by
  by_cases ht : trailingDS s = []
  · rw [strip_eq_self none ht]
  · rw [strip_eq_none ht]
    have hfl := front_trail_length s
    simp only [List.length_append, List.length_map]
    omega

/-- Stage 3 is a no-op when the stem is not reserved. -/
theorem hrn_eq_self {s : Name} (pc : Char) (h : reservedStem (stemFirstDot s) = false) :
    handle_reserved_names s pc = (s, []) := by
  unfold handle_reserved_names
  rw [h]
  simp

theorem reservedStem_false_of_head {x : Char} (l : Name)
    (hC : Char.toUpper x ≠ 'C') (hP : Char.toUpper x ≠ 'P') (hA : Char.toUpper x ≠ 'A')
    (hN : Char.toUpper x ≠ 'N') (hL : Char.toUpper x ≠ 'L') :
    reservedStem (x :: l) = false := by
  unfold reservedStem
  simp only [List.map_cons]
  split <;> simp_all

theorem reservedStem_singleton (c : Char) : reservedStem [c] = false := by
  unfold reservedStem
  simp only [List.map_cons, List.map_nil]
  split <;> simp_all

theorem stemFirstDot_cons (x : Char) (l : Name) :
    stemFirstDot (x :: l) = if x = '.' then [] else x :: stemFirstDot l := by
  unfold stemFirstDot
  rw [List.takeWhile_cons]
  by_cases hx : x = '.'
  · simp [hx]
  · simp [hx]

/-- Key fact: a name that starts with a character that cannot open a
reserved token (after upper-casing) has a non-reserved stem. -/
theorem stem_not_reserved_of_head {x : Char} (l : Name)
    (hC : Char.toUpper x ≠ 'C') (hP : Char.toUpper x ≠ 'P') (hA : Char.toUpper x ≠ 'A')
    (hN : Char.toUpper x ≠ 'N') (hL : Char.toUpper x ≠ 'L') :
    reservedStem (stemFirstDot (x :: l)) = false := by
  rw [stemFirstDot_cons]
  by_cases hx : x = '.'
  · rw [if_pos hx]; rfl
  · rw [if_neg hx]
    exact reservedStem_false_of_head _ hC hP hA hN hL

/-- After stage 3 (with the pipeline's fixed `"_"` prefix) the stem is
never reserved, whatever the input. -/
theorem hrn_stem_not_reserved (s : Name) :
    reservedStem (stemFirstDot (handle_reserved_names s).1) = false := by
  unfold handle_reserved_names
  by_cases h : reservedStem (stemFirstDot s) = true
  · rw [if_pos h]
    exact stem_not_reserved_of_head s (by decide) (by decide) (by decide) (by decide) (by decide)
  · rw [if_neg h]
    simpa using h

theorem hrn_noRestricted {s : Name} (hs : noRestricted s) :
    noRestricted (handle_reserved_names s).1 := by
  unfold handle_reserved_names
  split
  · intro c hc
    simp only [List.mem_cons] at hc
    rcases hc with hc | hc
    · subst hc; decide
    · exact hs c hc
  · exact hs

theorem hrn_noTrailDS {s : Name} (hs : noTrailDS s) :
    noTrailDS (handle_reserved_names s).1 := by
  unfold handle_reserved_names
  split
  · exact noTrailDS_cons (by decide) hs
  · exact hs

/-- Stage 4 is a no-op on short-enough names. -/
theorem truncate_eq_self {s : Name} {m : Nat} (h : s.length ≤ m) :
    truncate_name s m = (s, []) := by
  unfold truncate_name
  rw [if_pos h]

theorem truncate_eq_none {s : Name} {m : Nat} (h : ¬ s.length ≤ m) (hr : rfindDot s = none) :
    truncate_name s m = (s.take m, [Issue.truncated]) := by
  unfold truncate_name
  rw [if_neg h, hr]

theorem truncate_eq_zero {s : Name} {m : Nat} (h : ¬ s.length ≤ m) (hr : rfindDot s = some 0) :
    truncate_name s m = (s.take m, [Issue.truncated]) := by
  unfold truncate_name
  rw [if_neg h, hr]

theorem truncate_eq_ext {s : Name} {m k : Nat} (h : ¬ s.length ≤ m)
    (hr : rfindDot s = some (k + 1)) (he : m ≤ (s.drop (k + 1)).length) :
    truncate_name s m = (s.take m, [Issue.truncated]) := by
  unfold truncate_name
  rw [if_neg h, hr]
  simp only [if_pos he]

theorem truncate_eq_stem {s : Name} {m k : Nat} (h : ¬ s.length ≤ m)
    (hr : rfindDot s = some (k + 1)) (he : ¬ m ≤ (s.drop (k + 1)).length) :
    truncate_name s m =
      ((s.take (k + 1)).take (m - (s.drop (k + 1)).length) ++ s.drop (k + 1),
        [Issue.truncated]) := by
  unfold truncate_name
  rw [if_neg h, hr]
  simp only [if_neg he]

/-- C6 core: the truncation stage always returns a name of length at most
the limit. -/
theorem truncate_length_le (s : Name) (m : Nat) :
    (truncate_name s m).1.length ≤ m := by
  by_cases h : s.length ≤ m
  · rw [truncate_eq_self h]; exact h
  · cases hr : rfindDot s with
    | none => rw [truncate_eq_none h hr]; simp [List.length_take]
    | some j =>
        cases j with
        | zero => rw [truncate_eq_zero h hr]; simp [List.length_take]
        | succ k =>
            by_cases he : m ≤ (s.drop (k + 1)).length
            · rw [truncate_eq_ext h hr he]
              simp [List.length_take]
            · rw [truncate_eq_stem h hr he]
              push_neg at h he
              simp only [List.length_append, List.length_take, List.length_drop] at he ⊢
              omega

/-- Truncation only ever removes characters. -/
theorem truncate_mem {s : Name} {m : Nat} {c : Char}
    (h : c ∈ (truncate_name s m).1) : c ∈ s := by
  by_cases hl : s.length ≤ m
  · rw [truncate_eq_self hl] at h; exact h
  · cases hr : rfindDot s with
    | none =>
        rw [truncate_eq_none hl hr] at h
        exact List.take_subset _ _ h
    | some j =>
        cases j with
        | zero =>
            rw [truncate_eq_zero hl hr] at h
            exact List.take_subset _ _ h
        | succ k =>
            by_cases he : m ≤ (s.drop (k + 1)).length
            · rw [truncate_eq_ext hl hr he] at h
              exact List.take_subset _ _ h
            · rw [truncate_eq_stem hl hr he] at h
              simp only [List.mem_append] at h
              rcases h with h | h
              · exact List.take_subset _ _ (List.take_subset _ _ h)
              · exact List.drop_subset _ _ h

theorem head?_take {α : Type} (l : List α) {k : Nat} (hk : 1 ≤ k) :
    (l.take k).head? = l.head? := by
  cases l with
  | nil => simp
  | cons x xs =>
      cases k with
      | zero => omega
      | succ a => simp

/-- Truncation to a positive limit preserves the first character. -/
theorem truncate_head? (s : Name) {m : Nat} (hm : 1 ≤ m) :
    (truncate_name s m).1.head? = s.head? := by
  by_cases hl : s.length ≤ m
  · rw [truncate_eq_self hl]
  · cases hr : rfindDot s with
    | none => rw [truncate_eq_none hl hr]; exact head?_take s hm
    | some j =>
        cases j with
        | zero => rw [truncate_eq_zero hl hr]; exact head?_take s hm
        | succ k =>
            by_cases he : m ≤ (s.drop (k + 1)).length
            · rw [truncate_eq_ext hl hr he]
              exact head?_take s hm
            · rw [truncate_eq_stem hl hr he]
              push_neg at hl he
              have h1 : 1 ≤ m - (s.drop (k + 1)).length := by omega
              have hslen : 1 ≤ s.length := by omega
              have hne : (s.take (k + 1)).take (m - (s.drop (k + 1)).length) ≠ [] := by
                intro hcon
                have := congrArg List.length hcon
                simp only [List.length_take, List.length_nil] at this
                omega
              rw [List.head?_append_of_ne_nil _ hne]
              rw [head?_take _ h1, head?_take _ (by omega)]

/-!
## Composition of the pipeline
-/

theorem sanitize_fst (n : Name) (rc : Option Char) (m : Nat) :
    (sanitize_name n rc m).1 = (truncate_name (sanitize_pre_truncate n rc) m).1 := by
  simp only [sanitize_name, sanitize_pre_truncate]

/-- The whole pipeline is a no-op on an already-clean name (whatever the
configured mode). -/
theorem sanitize_noop {s : Name} (rc : Option Char) {m : Nat} (h1 : noRestricted s)
    (h2 : noTrailDS s) (h3 : reservedStem (stemFirstDot s) = false) (h4 : s.length ≤ m) :
    sanitize_name s rc m = (s, []) := by
  have e1 : replace_forbidden_chars s rc = (s, []) := rfc_eq_self rc h1
  have e2 : strip_trailing_dots_spaces s rc = (s, []) := strip_eq_self rc h2
  have e3 : handle_reserved_names s = (s, []) := hrn_eq_self '_' h3
  have e4 : truncate_name s m = (s, []) := truncate_eq_self h4
  simp [sanitize_name, e1, e2, e3, e4]

/-- The intermediate name fed to the truncation stage is always free of
restricted characters and trailing dots/spaces, and its stem is never
reserved — provided the substitute character (when one is configured) is
unrestricted and not a dot or space. -/
theorem pre_truncate_props (n : Name) {rc : Option Char}
    (hrc1 : ∀ c, rc = some c → isRestrictedChar c = false)
    (hrc2 : ∀ c, rc = some c → isDotSpace c = false) :
    noRestricted (sanitize_pre_truncate n rc) ∧ noTrailDS (sanitize_pre_truncate n rc) ∧
      reservedStem (stemFirstDot (sanitize_pre_truncate n rc)) = false := by
  unfold sanitize_pre_truncate
  exact ⟨hrn_noRestricted (strip_noRestricted (rfc_noRestricted hrc1) hrc1),
    hrn_noTrailDS (strip_noTrailDS hrc2),
    hrn_stem_not_reserved _⟩

theorem rfindDot_lt_length {n : Name} {j : Nat} (h : rfindDot n = some j) : j < n.length := by
  induction n generalizing j with
  | nil => simp [rfindDot] at h
  | cons c cs ih =>
      unfold rfindDot at h
      cases hr : rfindDot cs with
      | some j' =>
          rw [hr] at h
          simp only [Option.some.injEq] at h
          subst h
          have := ih hr
          simp only [List.length_cons]
          omega
      | none =>
          rw [hr] at h
          by_cases hc : c = '.'
          · rw [if_pos hc] at h
            simp only [Option.some.injEq] at h
            subst h
            simp
          · rw [if_neg hc] at h
            cases h

/-!
## Claim theorems
-/

/-- C1 (counterexample).  The claim asserts idempotence for *every*
configuration.  It fails: with `maxLength = 3` in Unicode mode, the input
`"ab c"` truncates to `"ab "`, which ends in a space, so sanitizing the
output again changes it (to `"ab␠"`). -/
theorem C1_counterexample :
    (sanitize_name ((sanitize_name ("ab c".toList) none 3).1) none 3).1
      ≠ (sanitize_name ("ab c".toList) none 3).1 := by decide

/-- C1 (amended).  Idempotence holds whenever the truncation stage does
not fire (the name after the first three stages fits in `maxLength`) and
the override substitute character, when configured, is neither restricted
nor a dot or space: then `sanitize(sanitize(n)) = sanitize(n)` (with an
empty issue list on the second pass) and `is_name_safe(sanitize(n))` holds
at the same `maxLength`. -/
theorem C1_sanitize_idempotent (n : Name) (rc : Option Char) (m : Nat)
    (hrc1 : ∀ c, rc = some c → isRestrictedChar c = false)
    (hrc2 : ∀ c, rc = some c → isDotSpace c = false)
    (hfit : (sanitize_pre_truncate n rc).length ≤ m) :
    sanitize_name (sanitize_name n rc m).1 rc m = ((sanitize_name n rc m).1, [])
      ∧ is_name_safe (sanitize_name n rc m).1 m = true := by
  have hfst : (sanitize_name n rc m).1 = sanitize_pre_truncate n rc := by
    rw [sanitize_fst, truncate_eq_self hfit]
  obtain ⟨p1, p2, p3⟩ := pre_truncate_props n hrc1 hrc2
  constructor
  · rw [hfst]
    exact sanitize_noop rc p1 p2 p3 hfit
  · rw [hfst]
    unfold is_name_safe
    rw [sanitize_noop none p1 p2 p3 hfit]
    simp

/-- Witness for C1's amended theorem at a concrete input. -/
theorem C1_witness :
    sanitize_name (sanitize_name ("a:b".toList) none 255).1 none 255
        = ((sanitize_name ("a:b".toList) none 255).1, [])
      ∧ is_name_safe (sanitize_name ("a:b".toList) none 255).1 255 = true :=
  C1_sanitize_idempotent ("a:b".toList) none 255 (fun _ h => nomatch h)
    (fun _ h => nomatch h) (by decide)

/-- C4 (counterexample).  The claim says that in single-character override
mode the reserved-name prefix is the caller-supplied substitute; in fact
`sanitize_name` always passes the default `"_"` to `handle_reserved_names`
(sanitizer.py:218), so `CON` with substitute `x` becomes `_CON`, not
`xCON`. -/
theorem C4_counterexample :
    (sanitize_name ("CON".toList) (some 'x') 255).1 = "_CON".toList
      ∧ (sanitize_name ("CON".toList) (some 'x') 255).1 ≠ "xCON".toList := by decide

/-- C4 (amended).  Whenever the character-substitution stages leave a name
whose stem matches a reserved device token, `sanitize_name` prefixes the
entire name with an underscore — in *both* modes — and records a
reserved-name issue; the result then goes through truncation unchanged
otherwise. -/
theorem C4_reserved_prefixed_with_underscore (n : Name) (rc : Option Char) (m : Nat)
    (hres : reservedStem (stemFirstDot
      (strip_trailing_dots_spaces (replace_forbidden_chars n rc).1 rc).1) = true) :
    (sanitize_name n rc m).1
        = (truncate_name
            ('_' :: (strip_trailing_dots_spaces (replace_forbidden_chars n rc).1 rc).1) m).1
      ∧ Issue.reservedName ∈ (sanitize_name n rc m).2 := by
  have e3 : handle_reserved_names
      (strip_trailing_dots_spaces (replace_forbidden_chars n rc).1 rc).1
      = ('_' :: (strip_trailing_dots_spaces (replace_forbidden_chars n rc).1 rc).1,
         [Issue.reservedName]) := by
    unfold handle_reserved_names
    rw [if_pos hres]
  constructor
  · simp only [sanitize_name, e3]
  · simp only [sanitize_name, e3]
    simp

/-- Witness for C4's amended theorem: override mode with substitute `x`
still prefixes `_`. -/
theorem C4_witness :
    (sanitize_name ("CON".toList) (some 'x') 255).1
        = (truncate_name
            ('_' :: (strip_trailing_dots_spaces
              (replace_forbidden_chars ("CON".toList) (some 'x')).1 (some 'x')).1) 255).1
      ∧ Issue.reservedName ∈ (sanitize_name ("CON".toList) (some 'x') 255).2 :=
  C4_reserved_prefixed_with_underscore ("CON".toList) (some 'x') 255 (by decide)

/-- C6.  For every input name, every mode, and every positive `maxLength`,
the sanitized result has at most `maxLength` characters. -/
theorem C6_length_bound (n : Name) (rc : Option Char) (m : Nat) (hm : 0 < m) :
    (sanitize_name n rc m).1.length ≤ m := by
  rw [sanitize_fst]
  exact truncate_length_le _ m

/-- Witness for C6 at a concrete input. -/
theorem C6_witness :
    (sanitize_name (("x:".toList) ++ List.replicate 300 'a') none 255).1.length ≤ 255 :=
  C6_length_bound _ none 255 (by decide)

/-- C7.  Reserved-name detection runs after character substitution:
`CON.txt` gains the `_` prefix (with a reserved-name issue), while `CON:x`
— whose colon has already become a fullwidth colon, leaving the stem
`CON：x` — does not. -/
theorem C7_reserved_after_substitution :
    (sanitize_name ("CON.txt".toList) none 255).1 = "_CON.txt".toList
      ∧ Issue.reservedName ∈ (sanitize_name ("CON.txt".toList) none 255).2
      ∧ (sanitize_name ("CON:x".toList) none 255).1 = "CON：x".toList
      ∧ Issue.reservedName ∉ (sanitize_name ("CON:x".toList) none 255).2 := by decide

set_option maxRecDepth 4000 in
/-- C8.  The extension-preserving truncation policy, exactly as
implemented: names within the limit are unchanged; with no dot or a
leading dot, or with an extension at or beyond the limit, the raw name is
cut to exactly `maxLength`; otherwise only the stem is cut and the result
has exactly `maxLength` characters; plus the two concrete scenarios from
the specification. -/
theorem C8_truncate_policy :
    (∀ n : Name, ∀ m : Nat, n.length ≤ m → truncate_name n m = (n, []))
      ∧ (∀ n : Name, ∀ m : Nat, ¬ n.length ≤ m →
          (rfindDot n = none ∨ rfindDot n = some 0) →
          (truncate_name n m).1 = n.take m ∧ (truncate_name n m).1.length = m)
      ∧ (∀ n : Name, ∀ m k : Nat, ¬ n.length ≤ m → rfindDot n = some (k + 1) →
          m ≤ (n.drop (k + 1)).length →
          (truncate_name n m).1 = n.take m ∧ (truncate_name n m).1.length = m)
      ∧ (∀ n : Name, ∀ m k : Nat, ¬ n.length ≤ m → rfindDot n = some (k + 1) →
          ¬ m ≤ (n.drop (k + 1)).length →
          (truncate_name n m).1
              = (n.take (k + 1)).take (m - (n.drop (k + 1)).length) ++ n.drop (k + 1)
            ∧ (truncate_name n m).1.length = m)
      ∧ ((truncate_name (List.replicate 300 'a') 255).1.length = 255
          ∧ (truncate_name (List.replicate 300 'a') 255).2 ≠ [])
      ∧ (truncate_name ('a' :: '.' :: List.replicate 300 'b') 255).1.length = 255 := by
  refine ⟨?_, ?_, ?_, ?_, by decide, by decide⟩
  · intro n m h
    exact truncate_eq_self h
  · intro n m h hr
    rcases hr with hr | hr
    · rw [truncate_eq_none h hr]
      refine ⟨rfl, ?_⟩
      simp only [List.length_take]
      omega
    · rw [truncate_eq_zero h hr]
      refine ⟨rfl, ?_⟩
      simp only [List.length_take]
      omega
  · intro n m k h hr he
    rw [truncate_eq_ext h hr he]
    refine ⟨rfl, ?_⟩
    simp only [List.length_take]
    omega
  · intro n m k h hr he
    rw [truncate_eq_stem h hr he]
    refine ⟨rfl, ?_⟩
    have hk := rfindDot_lt_length hr
    simp only [List.length_append, List.length_take, List.length_drop] at he ⊢
    omega

/-- Witness for C8 at concrete inputs. -/
theorem C8_witness : truncate_name ("ab".toList) 2 = ("ab".toList, []) :=
  C8_truncate_policy.1 ("ab".toList) 2 (by decide)

/-- C9.  `validate_path_under_root` fails exactly when the common path of
the resolved candidate and the resolved root differs from the root; in
particular `/tmp/abc-other` is rejected under root `/tmp/abc` even though
the root's text is a prefix of the candidate's text, while a genuine child
`/tmp/abc/x` is accepted. -/
theorem C9_validate_under_root :
    (∀ p r : PathC, validate_path_under_root p r = false ↔ commonComponents p r ≠ r)
      ∧ validate_path_under_root ["tmp".toList, "abc-other".toList]
          ["tmp".toList, "abc".toList] = false
      ∧ ("/tmp/abc".toList).isPrefixOf ("/tmp/abc-other".toList) = true
      ∧ validate_path_under_root ["tmp".toList, "abc".toList, "x".toList]
          ["tmp".toList, "abc".toList] = true := by
  refine ⟨?_, by decide, by decide, by decide⟩
  intro p r
  simp [validate_path_under_root]

/-!
## Collision resolution (C2, C3)
-/

theorem findAvailGo_not_taken {stem ext : Name} {taken : List Name} {m : Nat} :
    ∀ fuel counter f, findAvailGo stem ext taken m fuel counter = some f → f ∉ taken := by
  intro fuel
  induction fuel with
  | zero => intro counter f h; cases h
  | succ fl ih =>
      intro counter f h
      unfold findAvailGo at h
      by_cases hc : candidateAt stem ext m counter ∈ taken
      · rw [if_pos hc] at h
        exact ih _ f h
      · rw [if_neg hc] at h
        cases h
        exact hc

/-- When `_find_available_name` terminates, its result is fresh. -/
theorem find_available_not_taken {fuel : Nat} {d : Name} {taken : List Name} {m : Nat}
    {f : Name} (h : _find_available_name fuel d taken m = some f) : f ∉ taken := by
  unfold _find_available_name at h
  by_cases hd : d ∈ taken
  · rw [if_pos hd] at h
    exact findAvailGo_not_taken _ _ _ h
  · rw [if_neg hd] at h
    cases h
    exact hd

theorem resolveGo_spec {fuel m : Nat} :
    ∀ (rest : List (Name × Name)) (taken : List Name) (acc res : List (Name × Name)),
      resolveGo fuel m rest taken acc = some res →
      ∃ news, res = acc.reverse ++ news ∧ (news.map Prod.snd).Nodup ∧
        ∀ g ∈ news.map Prod.snd, g ∉ taken := by
  intro rest
  induction rest with
  | nil =>
      intro taken acc res h
      unfold resolveGo at h
      cases h
      exact ⟨[], by simp, List.nodup_nil, by simp⟩
  | cons p rest ih =>
      intro taken acc res h
      obtain ⟨o, d⟩ := p
      unfold resolveGo at h
      cases hf : _find_available_name fuel d taken m with
      | none => rw [hf] at h; cases h
      | some f =>
          rw [hf] at h
          obtain ⟨news, hres, hnd, hnt⟩ := ih (f :: taken) ((o, f) :: acc) res h
          refine ⟨(o, f) :: news, ?_, ?_, ?_⟩
          · rw [hres]
            simp
          · simp only [List.map_cons, List.nodup_cons]
            refine ⟨?_, hnd⟩
            intro hmem
            exact hnt f hmem (by simp)
          · intro g hg
            simp only [List.map_cons, List.mem_cons] at hg
            rcases hg with hg | hg
            · subst hg
              exact find_available_not_taken hf
            · intro hgt
              exact hnt g hg (by simp [hgt])

/-- C2.  Whenever collision resolution completes, the final names it
assigns are pairwise distinct and distinct from every untouched sibling
name. -/
theorem C2_collision_free (fuel : Nat) (planned : List (Name × Name))
    (untouched : List Name) (m : Nat) (res : List (Name × Name))
    (h : _resolve_collisions fuel planned untouched m = some res) :
    (res.map Prod.snd).Nodup ∧ ∀ f ∈ res.map Prod.snd, f ∉ untouched := by
  unfold _resolve_collisions at h
  obtain ⟨news, hres, hnd, hnt⟩ := resolveGo_spec _ _ _ _ h
  simp only [List.reverse_nil, List.nil_append] at hres
  subst hres
  exact ⟨hnd, hnt⟩

/-- Witness for C2: two siblings both wanting `x`, with `x` already
occupied by an untouched entry, end up as `x_1` and `x_2`. -/
theorem C2_witness :
    (([("a".toList, "x_1".toList), ("b".toList, "x_2".toList)]).map Prod.snd).Nodup
      ∧ ∀ f ∈ (([("a".toList, "x_1".toList), ("b".toList, "x_2".toList)]).map Prod.snd),
          f ∉ (["x".toList] : List Name) :=
  C2_collision_free 10 [("a".toList, "x".toList), ("b".toList, "x".toList)]
    ["x".toList] 10 [("a".toList, "x_1".toList), ("b".toList, "x_2".toList)] (by decide)

theorem natDigitsAux_ne_nil (fl n : Nat) : natDigitsAux (fl + 1) n ≠ [] := by
  unfold natDigitsAux
  split <;> simp

theorem suffixFor_length (counter : Nat) : 2 ≤ (suffixFor counter).length := by
  unfold suffixFor natDigits
  simp only [List.length_cons]
  have := natDigitsAux_ne_nil counter counter
  cases h : natDigitsAux (counter + 1) counter with
  | nil => exact absurd h this
  | cons a l => simp [h]

/-- C3 (code bug).  With `desired = "a"`, `taken = {"a"}` and
`max_length = 1`, every loop iteration of `_find_available_name` hard-
truncates its candidate back to `"a"`, which is taken — the source's
`while True` loop never terminates (the model returns `none` for every
fuel bound). -/
theorem C3_find_available_diverges :
    ∀ fuel, _find_available_name fuel ("a".toList) [("a".toList)] 1 = none := by
  intro fuel
  unfold _find_available_name
  rw [if_pos (by decide)]
  have hsplit : splitAtLastDot ("a".toList) = (['a'], []) := by decide
  rw [hsplit]
  have key : ∀ fl counter, findAvailGo ['a'] [] [("a".toList)] 1 fl counter = none := by
    intro fl
    induction fl with
    | zero => intro counter; rfl
    | succ f ih =>
        intro counter
        unfold findAvailGo
        have hcand : candidateAt ['a'] [] 1 counter = ['a'] := by
          have hsuf := suffixFor_length counter
          unfold candidateAt
          simp only []
          split
          · simp [List.take]
          · exfalso
            rename_i hcon
            simp only [List.length_nil] at hcon
            push_cast at hcon
            omega
        rw [hcand]
        rw [if_pos (by decide)]
        exact ih (counter + 1)
  exact key fuel 1

/-!
## Issues are reported exactly when a stage changes the name (C10)
-/

theorem strip_fst_some_fb {s : Name} {c : Char} (ht : trailingDS s ≠ [])
    (hf : beforeTrailingDS s = []) :
    (strip_trailing_dots_spaces s (some c)).1 = [c] := by
  rw [strip_eq_some_fb ht hf]

theorem strip_fst_some {s : Name} {c : Char} (ht : trailingDS s ≠ [])
    (hf : beforeTrailingDS s ≠ []) :
    (strip_trailing_dots_spaces s (some c)).1 = beforeTrailingDS s := by
  rw [strip_eq_some ht hf]

theorem strip_fst_none {s : Name} (ht : trailingDS s ≠ []) :
    (strip_trailing_dots_spaces s none).1
      = beforeTrailingDS s ++ (trailingDS s).map (fun ch =>
          if ch = '.' then unicodeDotRepl else if ch = ' ' then unicodeSpaceRepl else ch) := by
  rw [strip_eq_none ht]

/-- Stage 2 reports an issue exactly when the name has a trailing
dot/space run. -/
theorem strip_snd_nil_iff (s : Name) (rc : Option Char) :
    (strip_trailing_dots_spaces s rc).2 = [] ↔ trailingDS s = [] := by
  by_cases ht : trailingDS s = []
  · simp [strip_eq_self rc ht, ht]
  · simp only [ht, iff_false]
    cases rc with
    | some c =>
        by_cases hf : beforeTrailingDS s = []
        · simp [strip_eq_some_fb ht hf]
        · simp [strip_eq_some ht hf]
    | none => simp [strip_eq_none ht]

theorem strip_fst_of_snd_nil {s : Name} {rc : Option Char}
    (h : (strip_trailing_dots_spaces s rc).2 = []) :
    (strip_trailing_dots_spaces s rc).1 = s := by
  have ht := (strip_snd_nil_iff s rc).mp h
  rw [strip_eq_self rc ht]

/-- Stage 3 reports an issue exactly when the stem is reserved. -/
theorem hrn_snd_nil_iff (s : Name) (pc : Char) :
    (handle_reserved_names s pc).2 = [] ↔ reservedStem (stemFirstDot s) = false := by
  unfold handle_reserved_names
  split <;> rename_i h <;> simp_all

theorem hrn_fst_of_snd_nil {s : Name} {pc : Char}
    (h : (handle_reserved_names s pc).2 = []) : (handle_reserved_names s pc).1 = s := by
  have := (hrn_snd_nil_iff s pc).mp h
  rw [hrn_eq_self pc this]

theorem hrn_of_snd_ne_nil {s : Name} {pc : Char}
    (h : (handle_reserved_names s pc).2 ≠ []) :
    reservedStem (stemFirstDot s) = true ∧ (handle_reserved_names s pc).1 = pc :: s := by
  unfold handle_reserved_names at *
  by_cases hres : reservedStem (stemFirstDot s) = true
  · rw [if_pos hres]
    exact ⟨hres, rfl⟩
  · rw [if_neg hres] at h
    simp at h

/-- Stage 4 reports an issue exactly when the name is over-long. -/
theorem truncate_snd_nil_iff (s : Name) (m : Nat) :
    (truncate_name s m).2 = [] ↔ s.length ≤ m := by
  by_cases h : s.length ≤ m
  · simp [truncate_eq_self h, h]
  · simp only [h, iff_false]
    cases hr : rfindDot s with
    | none => simp [truncate_eq_none h hr]
    | some j =>
        cases j with
        | zero => simp [truncate_eq_zero h hr]
        | succ k =>
            by_cases he : m ≤ (s.drop (k + 1)).length
            · simp [truncate_eq_ext h hr he]
            · simp [truncate_eq_stem h hr he]

theorem truncate_fst_of_snd_nil {s : Name} {m : Nat}
    (h : (truncate_name s m).2 = []) : (truncate_name s m).1 = s := by
  have := (truncate_snd_nil_iff s m).mp h
  rw [truncate_eq_self this]

/-- The accumulated issue list of the pipeline is the concatenation of the
four per-stage issue lists. -/
theorem sanitize_snd (n : Name) (rc : Option Char) (m : Nat) :
    (sanitize_name n rc m).2 =
      (replace_forbidden_chars n rc).2
        ++ (strip_trailing_dots_spaces (replace_forbidden_chars n rc).1 rc).2
        ++ (handle_reserved_names
            (strip_trailing_dots_spaces (replace_forbidden_chars n rc).1 rc).1).2
        ++ (truncate_name (sanitize_pre_truncate n rc) m).2 := by
  simp only [sanitize_name, sanitize_pre_truncate]

/-- Easy direction of C10: no issues means the name is unchanged. -/
theorem sanitize_eq_of_issues_nil {n : Name} {rc : Option Char} {m : Nat}
    (hiss : (sanitize_name n rc m).2 = []) : (sanitize_name n rc m).1 = n := by
  rw [sanitize_snd] at hiss
  simp only [List.append_eq_nil] at hiss
  obtain ⟨⟨⟨h1, h2⟩, h3⟩, h4⟩ := hiss
  have hr1 : (replace_forbidden_chars n rc).1 = n := by
    rw [rfc_fst]
    exact (rfc_snd_nil_iff n rc).mp h1
  rw [hr1] at h2 h3
  have hr2 : (strip_trailing_dots_spaces n rc).1 = n := strip_fst_of_snd_nil h2
  rw [hr2] at h3
  have hr3 : (handle_reserved_names n).1 = n := hrn_fst_of_snd_nil h3
  have hpre : sanitize_pre_truncate n rc = n := by
    unfold sanitize_pre_truncate
    rw [hr1, hr2, hr3]
  rw [hpre] at h4
  rw [sanitize_fst, hpre]
  exact truncate_fst_of_snd_nil h4

theorem head?_eq_cons {α : Type} {l : List α} {a : α} (h : l.head? = some a) :
    ∃ t, l = a :: t := by
  cases l with
  | nil => cases h
  | cons x xs =>
      simp only [List.head?_cons, Option.some.injEq] at h
      subst h
      exact ⟨xs, rfl⟩

theorem reserved_false_of_head? {s : Name} {x : Char} (h : s.head? = some x)
    (hC : Char.toUpper x ≠ 'C') (hP : Char.toUpper x ≠ 'P') (hA : Char.toUpper x ≠ 'A')
    (hN : Char.toUpper x ≠ 'N') (hL : Char.toUpper x ≠ 'L') :
    reservedStem (stemFirstDot s) = false := by
  obtain ⟨t, ht⟩ := head?_eq_cons h
  rw [ht]
  exact stem_not_reserved_of_head t hC hP hA hN hL

theorem stem_not_reserved_singleton (c : Char) :
    reservedStem (stemFirstDot [c]) = false := by
  rw [stemFirstDot_cons]
  by_cases hc : c = '.'
  · rw [if_pos hc]
    rfl
  · rw [if_neg hc]
    exact reservedStem_singleton c

/-- Hard direction of C10: whenever any stage reports an issue, the final
name differs from the input (requires the substitute character, when
configured, to be unrestricted and not a dot or space). -/
theorem sanitize_ne_of_issues {n : Name} {rc : Option Char} {m : Nat}
    (hrc1 : ∀ c, rc = some c → isRestrictedChar c = false)
    (hrc2 : ∀ c, rc = some c → isDotSpace c = false)
    (hiss : (sanitize_name n rc m).2 ≠ []) :
    (sanitize_name n rc m).1 ≠ n := by
  intro hcon
  rw [sanitize_fst] at hcon
  -- The final name never contains a restricted character, so neither does
  -- `n`, so stage 1 was a no-op.
  have hNR2 : noRestricted
      (strip_trailing_dots_spaces (replace_forbidden_chars n rc).1 rc).1 :=
    strip_noRestricted (rfc_noRestricted hrc1) hrc1
  have hNR3 : noRestricted (sanitize_pre_truncate n rc) := by
    unfold sanitize_pre_truncate
    exact hrn_noRestricted hNR2
  have hNRn : noRestricted n := by
    rw [← hcon]
    intro c hc
    exact hNR3 c (truncate_mem hc)
  have hr1 : (replace_forbidden_chars n rc).1 = n := by
    rw [rfc_fst]
    exact rfcMap_eq_self rc hNRn
  have h1 : (replace_forbidden_chars n rc).2 = [] := by
    rw [rfc_snd_nil_iff]
    exact rfcMap_eq_self rc hNRn
  have hpre : sanitize_pre_truncate n rc
      = (handle_reserved_names (strip_trailing_dots_spaces n rc).1).1 := by
    unfold sanitize_pre_truncate
    rw [hr1]
  rw [sanitize_snd, h1, hr1, hpre] at hiss
  rw [hpre] at hcon
  simp only [List.nil_append] at hiss
  by_cases h2 : (strip_trailing_dots_spaces n rc).2 = []
  · -- stage 2 was a no-op
    have hr2 : (strip_trailing_dots_spaces n rc).1 = n := strip_fst_of_snd_nil h2
    rw [h2, hr2] at hiss
    rw [hr2] at hcon
    simp only [List.nil_append] at hiss
    by_cases h3 : (handle_reserved_names n).2 = []
    · -- stage 3 was a no-op, so stage 4 must have fired: length clash
      have hr3 : (handle_reserved_names n).1 = n := hrn_fst_of_snd_nil h3
      rw [h3, hr3] at hiss
      rw [hr3] at hcon
      simp only [List.nil_append] at hiss
      have hlen : ¬ n.length ≤ m := fun hle => hiss ((truncate_snd_nil_iff n m).mpr hle)
      have hb := truncate_length_le n m
      rw [hcon] at hb
      exact hlen hb
    · -- reserved-name prefixing fired on `n` itself
      obtain ⟨hres, hr3⟩ := hrn_of_snd_ne_nil h3
      rw [hr3] at hcon
      by_cases h4 : ('_' :: n).length ≤ m
      · rw [truncate_eq_self h4] at hcon
        have := congrArg List.length hcon
        simp at this
      · have hm1 : 1 ≤ m := by
          by_contra hm0
          push_neg at hm0
          have hb := truncate_length_le ('_' :: n) m
          rw [hcon] at hb
          have hn0 : n = [] := by
            cases n with
            | nil => rfl
            | cons a l => simp at hb; omega
          rw [hn0] at hres
          exact absurd hres (by decide)
        have hhead := truncate_head? ('_' :: n) hm1
        rw [hcon] at hhead
        have hn' : n.head? = some '_' := hhead.trans rfl
        have := reserved_false_of_head? hn' (by decide) (by decide) (by decide)
          (by decide) (by decide)
        rw [this] at hres
        cases hres
  · -- stage 2 fired: `n` ends with a dot or space
    have htrail : trailingDS n ≠ [] := fun hT => h2 ((strip_snd_nil_iff n rc).mpr hT)
    have hnne : n ≠ [] := by
      intro hn0
      rw [hn0] at htrail
      exact htrail noTrailDS_nil
    have hn1 : 1 ≤ n.length := by
      cases n with
      | nil => exact absurd rfl hnne
      | cons a l => simp
    have hT3 : noTrailDS (handle_reserved_names (strip_trailing_dots_spaces n rc).1).1 :=
      hrn_noTrailDS (strip_noTrailDS hrc2)
    by_cases h4 : (truncate_name
        (handle_reserved_names (strip_trailing_dots_spaces n rc).1).1 m).2 = []
    · -- no truncation: the final name has no trailing run but `n` does
      have hfe := truncate_fst_of_snd_nil h4
      rw [hfe] at hcon
      rw [hcon] at hT3
      exact htrail hT3
    · -- truncation fired
      have hgt : ¬ ((handle_reserved_names (strip_trailing_dots_spaces n rc).1).1).length
          ≤ m := fun hle => h4 ((truncate_snd_nil_iff _ m).mpr hle)
      have hlen4 : n.length ≤ m := by
        have hb := truncate_length_le
          (handle_reserved_names (strip_trailing_dots_spaces n rc).1).1 m
        rw [hcon] at hb
        exact hb
      have hm1 : 1 ≤ m := le_trans hn1 hlen4
      by_cases h3 : (handle_reserved_names (strip_trailing_dots_spaces n rc).1).2 = []
      · -- no prefixing: stage-2 output is never longer than `n`, clash
        have hr3 := hrn_fst_of_snd_nil h3
        rw [hr3] at hgt
        have hle2 := strip_length_le n rc
        rw [Nat.max_eq_right hn1] at hle2
        exact hgt (le_trans hle2 hlen4)
      · -- prefixing fired: the final name starts with '_', so `n` does,
        -- so the stage-2 output's stem cannot have been reserved
        obtain ⟨hres, hr3⟩ := hrn_of_snd_ne_nil h3
        rw [hr3] at hcon
        have hhead := truncate_head? ('_' :: (strip_trailing_dots_spaces n rc).1) hm1
        rw [hcon] at hhead
        have hn' : n.head? = some '_' := hhead.trans rfl
        have hfr : beforeTrailingDS n ≠ [] → (beforeTrailingDS n).head? = some '_' := by
          intro hf
          have happ : (beforeTrailingDS n ++ trailingDS n).head?
              = (beforeTrailingDS n).head? := List.head?_append_of_ne_nil _ hf
          rw [front_append_trail] at happ
          exact happ.symm.trans hn'
        cases rc with
        | some c =>
            by_cases hf : beforeTrailingDS n = []
            · rw [strip_fst_some_fb htrail hf] at hres
              rw [stem_not_reserved_singleton c] at hres
              cases hres
            · rw [strip_fst_some htrail hf] at hres
              rw [reserved_false_of_head? (hfr hf) (by decide) (by decide) (by decide)
                (by decide) (by decide)] at hres
              cases hres
        | none =>
            rw [strip_fst_none htrail] at hres
            by_cases hf : beforeTrailingDS n = []
            · rw [hf, List.nil_append] at hres
              cases hTT : trailingDS n with
              | nil => exact htrail hTT
              | cons a t' =>
                  have hads : isDotSpace a = true := by
                    apply mem_trailingDS (s := n)
                    rw [hTT]
                    simp
                  rw [hTT] at hres
                  simp only [List.map_cons] at hres
                  unfold isDotSpace at hads
                  rcases Bool.or_eq_true_iff.mp hads with ha | ha
                  · have ha' : a = '.' := by simpa using ha
                    subst ha'
                    simp only [if_pos rfl] at hres
                    rw [stem_not_reserved_of_head _ (by decide) (by decide) (by decide)
                      (by decide) (by decide)] at hres
                    cases hres
                  · have ha' : a = ' ' := by simpa using ha
                    subst ha'
                    simp only [reduceIte] at hres
                    rw [stem_not_reserved_of_head _ (by decide) (by decide) (by decide)
                      (by decide) (by decide)] at hres
                    cases hres
            · have hh2 : (beforeTrailingDS n ++ (trailingDS n).map (fun ch =>
                  if ch = '.' then unicodeDotRepl
                  else if ch = ' ' then unicodeSpaceRepl else ch)).head?
                  = some '_' := by
                rw [List.head?_append_of_ne_nil _ hf]
                exact hfr hf
              rw [reserved_false_of_head? hh2 (by decide) (by decide) (by decide)
                (by decide) (by decide)] at hres
              cases hres

/-- C10 (counterexample).  The claim allows any unrestricted substitute
character; with `replace_char = '.'` and input `"."`, the trailing-dot run
is stripped, the name becomes empty, and the fallback restores `"."` — the
name is unchanged yet two issues are reported. -/
theorem C10_counterexample :
    (sanitize_name ['.'] (some '.') 255).1 = ['.']
      ∧ (sanitize_name ['.'] (some '.') 255).2 ≠ [] := by decide

/-- C10 (amended).  If the substitute character is additionally neither a
dot nor a space (in Unicode mode there is no substitute), then the
sanitized name differs from the input exactly when the issue list is
non-empty. -/
theorem C10_changed_iff_issues (n : Name) (rc : Option Char) (m : Nat)
    (hrc1 : ∀ c, rc = some c → isRestrictedChar c = false)
    (hrc2 : ∀ c, rc = some c → isDotSpace c = false) :
    (sanitize_name n rc m).1 ≠ n ↔ (sanitize_name n rc m).2 ≠ [] := by
  constructor
  · intro hne hnil
    exact hne (sanitize_eq_of_issues_nil hnil)
  · intro hiss
    exact sanitize_ne_of_issues hrc1 hrc2 hiss

/-- Witness for C10's amended theorem at a concrete input. -/
theorem C10_witness :
    (sanitize_name ("a:b".toList) none 255).1 ≠ "a:b".toList
      ↔ (sanitize_name ("a:b".toList) none 255).2 ≠ [] :=
  C10_changed_iff_issues ("a:b".toList) none 255 (fun _ h => nomatch h)
    (fun _ h => nomatch h)

/-!
## Plan ordering (C5)
-/

theorem isUnder_length : ∀ {p q : PathC}, isUnder p q = true → p.length ≤ q.length := by
  intro p
  induction p with
  | nil => intro q _; simp
  | cons a as ih =>
      intro q h
      cases q with
      | nil => simp [isUnder] at h
      | cons b bs =>
          simp only [isUnder, Bool.and_eq_true, decide_eq_true_eq] at h
          have := ih h.2
          simp only [List.length_cons]
          omega

theorem eq_of_isUnder_of_length : ∀ {p q : PathC}, isUnder p q = true →
    q.length ≤ p.length → p = q := by
  intro p
  induction p with
  | nil =>
      intro q _ hl
      cases q with
      | nil => rfl
      | cons b bs => simp at hl
  | cons a as ih =>
      intro q h hl
      cases q with
      | nil => simp [isUnder] at h
      | cons b bs =>
          simp only [isUnder, Bool.and_eq_true, decide_eq_true_eq] at h
          simp only [List.length_cons] at hl
          rw [h.1, ih h.2 (by omega)]

theorem isUnder_of_append_left : ∀ {u v w : PathC}, isUnder (u ++ v) w = true →
    isUnder u w = true := by
  intro u
  induction u with
  | nil => intro v w _; rfl
  | cons a as ih =>
      intro v w h
      cases w with
      | nil => simp [isUnder] at h
      | cons b bs =>
          simp only [List.cons_append, isUnder, Bool.and_eq_true] at h ⊢
          exact ⟨h.1, ih h.2⟩

theorem isUnder_strip_last : ∀ {p q : PathC} {y : Name}, isUnder p (q ++ [y]) = true →
    p.length ≤ q.length → isUnder p q = true := by
  intro p
  induction p with
  | nil => intro q y _ _; rfl
  | cons a as ih =>
      intro q y h hl
      cases q with
      | nil => simp at hl
      | cons b bs =>
          simp only [List.cons_append, isUnder, Bool.and_eq_true] at h ⊢
          simp only [List.length_cons] at hl
          exact ⟨h.1, ih h.2 (by omega)⟩

theorem isUnder_append_cons_eq : ∀ {u : PathC} {a b : Name} {v w : PathC},
    isUnder (u ++ a :: v) (u ++ b :: w) = true → a = b := by
  intro u
  induction u with
  | nil =>
      intro a b v w h
      simp only [List.nil_append, isUnder, Bool.and_eq_true, decide_eq_true_eq] at h
      exact h.1
  | cons c cs ih =>
      intro a b v w h
      simp only [List.cons_append, isUnder, Bool.and_eq_true] at h
      exact ih h.2

theorem isUnder_snoc_same {u : PathC} {a b : Name}
    (h : isUnder (u ++ [a]) (u ++ [b]) = true) : a = b :=
  isUnder_append_cons_eq h

/-- The key geometric step: if one action's source (a directory entry
`q1/x`) lies strictly above another's (`q2/y`), then the directory `q1/x`
itself lies weakly above the directory `q2`, hence `q1` strictly above
`q2`. -/
theorem under_of_snoc_under {q1 q2 : PathC} {x y : Name}
    (hU : isUnder (q1 ++ [x]) (q2 ++ [y]) = true) (hne : q1 ++ [x] ≠ q2 ++ [y]) :
    isUnder q1 q2 = true ∧ q1 ≠ q2 := by
  have hl : (q1 ++ [x]).length ≤ (q2 ++ [y]).length := isUnder_length hU
  simp only [List.length_append, List.length_cons, List.length_nil] at hl
  by_cases heq : q1.length = q2.length
  · exfalso
    exact hne (eq_of_isUnder_of_length hU (by simp; omega))
  · have hlt : q1.length < q2.length := by omega
    have h1 : isUnder (q1 ++ [x]) q2 = true := isUnder_strip_last hU (by simp; omega)
    refine ⟨isUnder_of_append_left h1, ?_⟩
    intro hq
    rw [hq] at hlt
    omega

/-- Joint structural induction over `FSEntry` and lists of entries
(derived from strong induction on `sizeOf`, since `FSEntry` nests
`List`). -/
theorem fs_induction (P : FSEntry → Prop) (Q : List FSEntry → Prop)
    (hf : ∀ n, P (.file n)) (hs : ∀ n, P (.symlink n))
    (hd : ∀ n cs, Q cs → P (.dir n cs))
    (h0 : Q []) (h1 : ∀ c cs, P c → Q cs → Q (c :: cs)) :
    (∀ e, P e) ∧ ∀ cs, Q cs := by
  have key : ∀ k, (∀ e : FSEntry, sizeOf e ≤ k → P e)
      ∧ (∀ cs : List FSEntry, sizeOf cs ≤ k → Q cs) := by
    intro k
    induction k with
    | zero =>
        constructor
        · intro e he
          cases e <;> simp_arith at he
        · intro cs hcs
          cases cs with
          | nil => exact h0
          | cons c cs' => simp_arith at hcs
    | succ k ih =>
        constructor
        · intro e he
          cases e with
          | file n => exact hf n
          | symlink n => exact hs n
          | dir n cs =>
              refine hd n cs (ih.2 cs ?_)
              simp_arith at he
              omega
        · intro cs hcs
          cases cs with
          | nil => exact h0
          | cons c cs' =>
              simp_arith at hcs
              exact h1 c cs' (ih.1 c (by omega)) (ih.2 cs' (by omega))
  exact ⟨fun e => (key (sizeOf e)).1 e le_rfl, fun cs => (key (sizeOf cs)).2 cs le_rfl⟩

/-- Every triple produced by the walk lies strictly below the starting
path, through the walked entry's name. -/
theorem walk_shape :
    (∀ e : FSEntry, ∀ path q ch, (q, ch) ∈ walkEntry path e →
        ∃ rest, q = path ++ entryName e :: rest)
      ∧ ∀ cs : List FSEntry, ∀ path q ch, (q, ch) ∈ walkList path cs →
          ∃ c ∈ cs, ∃ rest, q = path ++ entryName c :: rest := by
  apply fs_induction
  · intro n path q ch h
    simp [walkEntry] at h
  · intro n path q ch h
    simp [walkEntry] at h
  · intro n cs ih path q ch h
    simp only [walkEntry, List.mem_append, List.mem_singleton] at h
    rcases h with h | h
    · obtain ⟨c, _, rest, hq⟩ := ih (path ++ [n]) q ch h
      refine ⟨entryName c :: rest, ?_⟩
      rw [hq]
      simp [entryName]
    · injection h with hq _
      exact ⟨[], by rw [hq]; simp [entryName]⟩
  · intro path q ch h
    simp [walkList] at h
  · intro c cs ihc ihcs path q ch h
    simp only [walkList, List.mem_append] at h
    rcases h with h | h
    · obtain ⟨rest, hq⟩ := ihc path q ch h
      exact ⟨c, by simp, rest, hq⟩
    · obtain ⟨c', hc', rest, hq⟩ := ihcs path q ch h
      exact ⟨c', by simp [hc'], rest, hq⟩

/-- In the post-order walk of a well-formed tree no earlier triple's path
lies strictly above a later triple's path. -/
theorem walk_pairwise :
    (∀ e : FSEntry, wfEntry e = true → ∀ path,
        List.Pairwise (fun t1 t2 : PathC × List FSEntry =>
          ¬ (isUnder t1.1 t2.1 = true ∧ t1.1 ≠ t2.1)) (walkEntry path e))
      ∧ ∀ cs : List FSEntry, wfList cs = true → (cs.map entryName).Nodup → ∀ path,
          List.Pairwise (fun t1 t2 : PathC × List FSEntry =>
            ¬ (isUnder t1.1 t2.1 = true ∧ t1.1 ≠ t2.1)) (walkList path cs) := by
  have main := fs_induction
    (fun e => wfEntry e = true → ∀ path,
      List.Pairwise (fun t1 t2 : PathC × List FSEntry =>
        ¬ (isUnder t1.1 t2.1 = true ∧ t1.1 ≠ t2.1)) (walkEntry path e))
    (fun cs => wfList cs = true → (cs.map entryName).Nodup → ∀ path,
      List.Pairwise (fun t1 t2 : PathC × List FSEntry =>
        ¬ (isUnder t1.1 t2.1 = true ∧ t1.1 ≠ t2.1)) (walkList path cs))
    ?_ ?_ ?_ ?_ ?_
  · exact main
  · intro n _ path
    simp [walkEntry]
  · intro n _ path
    simp [walkEntry]
  · intro n cs ih hw path
    simp only [wfEntry, Bool.and_eq_true, decide_eq_true_eq] at hw
    simp only [walkEntry]
    rw [List.pairwise_append]
    refine ⟨ih hw.2 hw.1 (path ++ [n]), by simp, ?_⟩
    intro t1 ht1 t2 ht2
    simp only [List.mem_singleton] at ht2
    subst ht2
    obtain ⟨c, _, rest, hq⟩ := walk_shape.2 cs (path ++ [n]) t1.1 t1.2 (by
      cases t1
      exact ht1)
    intro ⟨hU, _⟩
    have := isUnder_length hU
    rw [hq] at this
    simp at this
  · intro _ _ path
    simp [walkList]
  · intro c cs ihc ihcs hw hnd path
    simp only [wfList, Bool.and_eq_true] at hw
    simp only [List.map_cons, List.nodup_cons] at hnd
    simp only [walkList]
    rw [List.pairwise_append]
    refine ⟨ihc hw.1 path, ihcs hw.2 hnd.2 path, ?_⟩
    intro t1 ht1 t2 ht2
    obtain ⟨r1, hq1⟩ := walk_shape.1 c path t1.1 t1.2 (by cases t1; exact ht1)
    obtain ⟨c', hc', r2, hq2⟩ := walk_shape.2 cs path t2.1 t2.2 (by cases t2; exact ht2)
    intro ⟨hU, _⟩
    rw [hq1, hq2] at hU
    have heq := isUnder_append_cons_eq hU
    exact hnd.1 (heq ▸ List.mem_map_of_mem entryName hc')

/-- The full triple list of a scan is ordered with no directory's triple
before a strictly deeper triple. -/
theorem walkTriples_pairwise {cs : List FSEntry} (hwf : wfChildren cs = true)
    (rootPath : PathC) :
    List.Pairwise (fun t1 t2 : PathC × List FSEntry =>
      ¬ (isUnder t1.1 t2.1 = true ∧ t1.1 ≠ t2.1)) (walkTriples rootPath cs) := by
  simp only [wfChildren, Bool.and_eq_true, decide_eq_true_eq] at hwf
  unfold walkTriples
  rw [List.pairwise_append]
  refine ⟨walk_pairwise.2 cs hwf.2 hwf.1 rootPath, by simp, ?_⟩
  intro t1 ht1 t2 ht2
  simp only [List.mem_singleton] at ht2
  subst ht2
  obtain ⟨c, _, rest, hq⟩ := walk_shape.2 cs rootPath t1.1 t1.2 (by cases t1; exact ht1)
  intro ⟨hU, _⟩
  have := isUnder_length hU
  rw [hq] at this
  simp at this

theorem mapOrNone_mem {α β : Type} {f : α → Option β} :
    ∀ {l : List α} {res : List β}, mapOrNone f l = some res →
      ∀ b ∈ res, ∃ a ∈ l, f a = some b := by
  intro l
  induction l with
  | nil =>
      intro res h b hb
      unfold mapOrNone at h
      cases h
      simp at hb
  | cons x xs ih =>
      intro res h b hb
      unfold mapOrNone at h
      cases hfx : f x with
      | none =>
          rw [hfx] at h
          cases hrest : mapOrNone f xs <;> rw [hrest] at h <;> simp at h
      | some y =>
          rw [hfx] at h
          cases hrest : mapOrNone f xs with
          | none => rw [hrest] at h; simp at h
          | some ys =>
              rw [hrest] at h
              simp only [Option.some.injEq] at h
              subst h
              rcases List.mem_cons.mp hb with hb | hb
              · exact ⟨x, by simp, by rw [hfx, hb]⟩
              · obtain ⟨a, ha, hfa⟩ := ih hrest b hb
                exact ⟨a, by simp [ha], hfa⟩

theorem mapOrNone_forall₂ {α β : Type} {f : α → Option β} :
    ∀ {l : List α} {res : List β}, mapOrNone f l = some res →
      List.Forall₂ (fun a b => f a = some b) l res := by
  intro l
  induction l with
  | nil =>
      intro res h
      unfold mapOrNone at h
      cases h
      exact List.Forall₂.nil
  | cons x xs ih =>
      intro res h
      unfold mapOrNone at h
      cases hfx : f x with
      | none =>
          rw [hfx] at h
          cases hrest : mapOrNone f xs <;> rw [hrest] at h <;> simp at h
      | some y =>
          rw [hfx] at h
          cases hrest : mapOrNone f xs with
          | none => rw [hrest] at h; simp at h
          | some ys =>
              rw [hrest] at h
              simp only [Option.some.injEq] at h
              subst h
              exact List.Forall₂.cons hfx (ih hrest)

theorem forall₂_exists_left {α β : Type} {R : α → β → Prop} :
    ∀ {l : List α} {res : List β}, List.Forall₂ R l res →
      ∀ b ∈ res, ∃ a ∈ l, R a b := by
  intro l res h
  induction h with
  | nil => intro b hb; simp at hb
  | cons ha _ ih =>
      intro b hb
      rcases List.mem_cons.mp hb with hb | hb
      · subst hb
        exact ⟨_, by simp, ha⟩
      · obtain ⟨a, ham, har⟩ := ih b hb
        exact ⟨a, by simp [ham], har⟩

/-- Transport a pairwise property along a pointwise correspondence. -/
theorem forall₂_pairwise {α β : Type} {R : α → β → Prop} {S : α → α → Prop}
    {T : β → β → Prop} (compat : ∀ a a' b b', R a b → R a' b' → S a a' → T b b') :
    ∀ {l : List α} {res : List β}, List.Forall₂ R l res →
      List.Pairwise S l → List.Pairwise T res := by
  intro l res hf
  induction hf with
  | nil => intro _; exact List.Pairwise.nil
  | cons ha htail ih =>
      intro hp
      rw [List.pairwise_cons] at hp ⊢
      refine ⟨?_, ih hp.2⟩
      intro b' hb'
      obtain ⟨a', ha', hr⟩ := forall₂_exists_left htail b' hb'
      exact compat _ _ _ _ ha hr (hp.1 a' ha')

/-- Every emitted action's source is the block's directory path extended
by the entry's original name. -/
theorem emitAction_source {root dirpath : PathC}
    {sani : List (Name × EntryKind × Name × List Issue)} {planned : List (Name × Name)}
    {of : Name × Name} {a : RenameAction}
    (h : emitAction root dirpath sani planned of = some a) :
    a.source = dirpath ++ [of.1] := by
  simp only [emitAction] at h
  split at h
  · cases h
    rfl
  · simp at h

theorem dirBlock_sources {fuel : Nat} {rc : Option Char} {m : Nat} {root dirpath : PathC}
    {children : List FSEntry} {b : List RenameAction × List PathC × Nat}
    (h : dirBlock fuel rc m root dirpath children = some b) :
    ∀ a ∈ b.1, ∃ o, a.source = dirpath ++ [o] := by
  simp only [dirBlock] at h
  split at h
  · simp at h
  · split at h
    · simp at h
    · rename_i finals _ acts hmap
      simp only [Option.some.injEq] at h
      subst h
      intro a ha
      obtain ⟨of, _, hemit⟩ := mapOrNone_mem hmap a ha
      exact ⟨of.1, emitAction_source hemit⟩

theorem build_plan_actions {fuel : Nat} {rootPath : PathC} {children : List FSEntry}
    {rc : Option Char} {m : Nat} {plan : RenamePlan}
    (h : build_rename_plan fuel rootPath children rc m = some plan) :
    ∃ blocks, mapOrNone (fun t => dirBlock fuel rc m rootPath t.1 t.2)
        (walkTriples rootPath children) = some blocks
      ∧ plan.actions = (blocks.map (fun b => b.1)).flatten := by
  simp only [build_rename_plan] at h
  split at h
  · simp at h
  · rename_i blocks hmap
    simp only [Option.some.injEq] at h
    subst h
    exact ⟨blocks, hmap, rfl⟩

/-- No action for a directory precedes an action for anything strictly
inside that directory. -/
theorem plan_actions_pairwise {fuel : Nat} {rc : Option Char} {m : Nat}
    {rootPath : PathC} {children : List FSEntry} {plan : RenamePlan}
    (hwf : wfChildren children = true)
    (h : build_rename_plan fuel rootPath children rc m = some plan) :
    List.Pairwise (fun a b : RenameAction =>
      ¬ (isUnder a.source b.source = true ∧ a.source ≠ b.source)) plan.actions := by
  obtain ⟨blocks, hmap, hacts⟩ := build_plan_actions h
  rw [hacts, List.pairwise_flatten]
  constructor
  · intro l hl
    simp only [List.mem_map] at hl
    obtain ⟨b, hb, rfl⟩ := hl
    obtain ⟨t, _, hdb⟩ := mapOrNone_mem hmap b hb
    apply List.pairwise_of_forall_mem_list
    intro x hx y hy
    obtain ⟨o1, hs1⟩ := dirBlock_sources hdb x hx
    obtain ⟨o2, hs2⟩ := dirBlock_sources hdb y hy
    intro ⟨hU, hne⟩
    rw [hs1, hs2] at hU hne
    exact hne (by rw [isUnder_snoc_same hU])
  · rw [List.pairwise_map]
    refine forall₂_pairwise ?_ (mapOrNone_forall₂ hmap) (walkTriples_pairwise hwf rootPath)
    intro t1 t2 b1 b2 h1 h2 hS
    intro x hx y hy ⟨hU, hne⟩
    obtain ⟨o1, hs1⟩ := dirBlock_sources h1 x hx
    obtain ⟨o2, hs2⟩ := dirBlock_sources h2 y hy
    rw [hs1, hs2] at hU hne
    exact hS (under_of_snoc_under hU hne)

/-- C5.  For every scanned well-formed tree, whenever one action's source
path lies strictly above another action's source path (i.e. the first
renames a directory and the second something inside it), the inner action
comes strictly earlier in the plan's action sequence. -/
theorem C5_contents_before_container (fuel : Nat) (rc : Option Char) (m : Nat)
    (rootPath : PathC) (children : List FSEntry) (plan : RenamePlan)
    (hwf : wfChildren children = true)
    (hplan : build_rename_plan fuel rootPath children rc m = some plan)
    (i j : Fin plan.actions.length)
    (hU : isUnder (plan.actions.get i).source (plan.actions.get j).source = true)
    (hne : (plan.actions.get i).source ≠ (plan.actions.get j).source) :
    (j : Nat) < (i : Nat) := by
  have hpw := plan_actions_pairwise hwf hplan
  rw [List.pairwise_iff_get] at hpw
  rcases Nat.lt_trichotomy (i : Nat) (j : Nat) with hij | hij | hij
  · exact absurd ⟨hU, hne⟩ (hpw i j hij)
  · exact absurd (congrArg (fun k => (plan.actions.get k).source) (Fin.ext hij)) hne
  · exact hij

/-- Witness for C5: scanning a root with directory `a:` containing file
`b:` (override mode, substitute `_`) puts the file's action (index 0)
before the directory's (index 1). -/
theorem C5_witness : (0 : Nat) < 1 :=
  C5_contents_before_container 10 (some '_') 255 [['r']]
    [.dir ("a:".toList) [.file ("b:".toList)]]
    { root := [['r']],
      actions := [{ source := [['r'], ['a', ':'], ['b', ':']],
                    destination := [['r'], ['a', ':'], ['b', '_']],
                    kind := EntryKind.file,
                    original_name := ['b', ':'],
                    final_name := ['b', '_'],
                    issues := [Issue.replacedChars],
                    needs_rename := true },
                  { source := [['r'], ['a', ':']],
                    destination := [['r'], ['a', '_']],
                    kind := EntryKind.directory,
                    original_name := ['a', ':'],
                    final_name := ['a', '_'],
                    issues := [Issue.replacedChars],
                    needs_rename := true }],
      skipped_symlinks := [],
      total_entries_scanned := 2,
      total_renames_needed := 2 } (by decide) (by decide)
    ⟨1, by decide⟩ ⟨0, by decide⟩ (by decide) (by decide)

end RFR
